import Mathlib

/-!
Shallow embedding of the `palabras-rag` repository (src/scraper.py and
src/accumulate.py) and verification of the specification's claims about it.

Files on disk are modelled at the I/O boundary: a directory is a listing
(a `List String` of file names, as returned by `os.listdir`) together with a
content function `String → List String` giving, for each file name, the list
of lines obtained by `open(...).read().splitlines()`.

The pandas/plotly layer is modelled by its documented observable behaviour:
`pd.DataFrame(list_of_dicts)` (column order = first-appearance order of dict
keys, missing cells = NaN, a column containing NaN is promoted to float64),
`fillna(0)`, `to_csv(index=False)`, `melt(id_vars=["date"])` (KeyError when an
id_var is not a column), `iloc[-1]` (IndexError on an empty frame) and
`sort_values(by='count', ascending=False)` (a stable descending sort:
pandas sorts descending by reversing the array, arg-sorting ascending and
reversing the resulting indexer, which preserves the original relative
order of ties).
-/

/-! ### Python `str.replace` (replace all non-overlapping occurrences) -/

/-- Fuel-indexed worker for `replaceAll`; the fuel bounds the number of
characters consumed, so plain structural recursion suffices. -/
def replaceAllAux (pat rep : List Char) : Nat → List Char → List Char
  | _, [] => []
  | 0, s => s
  | fuel + 1, c :: cs =>
    if pat.isPrefixOf (c :: cs) then
      rep ++ replaceAllAux pat rep fuel ((c :: cs).drop pat.length)
    else
      c :: replaceAllAux pat rep fuel cs

/-- Python's `s.replace(pat, rep)`: replace every non-overlapping occurrence
of `pat` in `s` by `rep`, scanning left to right. -/
def replaceAll (s pat rep : String) : String :=
  String.mk (replaceAllAux pat.data rep.data s.data.length s.data)

/-! ### Python string comparison (lexicographic by code point) -/

/-- Python's `s <= t` on strings, lexicographic by code point, on the
underlying character lists. -/
def strLeb : List Char → List Char → Bool
  | [], _ => true
  | _ :: _, [] => false
  | a :: as, b :: bs => if a = b then strLeb as bs else decide (a < b)

/-- Python's `s <= t` on strings, as a decidable proposition. -/
def strLeP (s t : String) : Prop := strLeb s.data t.data = true

instance : DecidableRel strLeP := fun _ _ =>
  inferInstanceAs (Decidable (_ = true))

theorem strLeb_total : ∀ as bs, strLeb as bs = true ∨ strLeb bs as = true
  | [], _ => Or.inl rfl
  | _ :: _, [] => Or.inr rfl
  | a :: as, b :: bs => by
    by_cases hab : a = b
    · subst hab
      simpa [strLeb] using strLeb_total as bs
    · rcases lt_trichotomy a b with h | h | h
      · simp [strLeb, hab, h]
      · exact absurd h hab
      · simp [strLeb, hab, Ne.symm hab, h, not_lt_of_lt h]

theorem strLeb_antisymm : ∀ as bs, strLeb as bs = true → strLeb bs as = true →
    as = bs
  | [], [], _, _ => rfl
  | [], _ :: _, _, h => by simp [strLeb] at h
  | _ :: _, [], h, _ => by simp [strLeb] at h
  | a :: as, b :: bs, h₁, h₂ => by
    by_cases hab : a = b
    · subst hab
      simp only [strLeb, if_pos rfl] at h₁ h₂
      exact congrArg (a :: ·) (strLeb_antisymm as bs h₁ h₂)
    · simp only [strLeb, if_neg hab, if_neg (Ne.symm hab), decide_eq_true_eq] at h₁ h₂
      exact absurd h₂ (not_lt_of_lt h₁)

theorem strLeb_trans : ∀ as bs cs, strLeb as bs = true → strLeb bs cs = true →
    strLeb as cs = true
  | [], _, _, _, _ => rfl
  | _ :: _, [], _, h, _ => by simp [strLeb] at h
  | _ :: _, _ :: _, [], _, h => by simp [strLeb] at h
  | a :: as, b :: bs, c :: cs, h₁, h₂ => by
    by_cases hab : a = b <;> by_cases hbc : b = c
    · subst hab; subst hbc
      simp only [strLeb, if_pos rfl] at h₁ h₂ ⊢
      exact strLeb_trans as bs cs h₁ h₂
    · subst hab
      simpa [strLeb, hbc] using h₂
    · subst hbc
      simpa [strLeb, hab] using h₁
    · simp only [strLeb, if_neg hab, if_neg hbc, decide_eq_true_eq] at h₁ h₂
      have hac : a < c := lt_trans h₁ h₂
      simp [strLeb, ne_of_lt hac, hac]

instance : IsTotal String strLeP :=
  ⟨fun s t => strLeb_total s.data t.data⟩

instance : IsTrans String strLeP :=
  ⟨fun s t u => strLeb_trans s.data t.data u.data⟩

instance : IsAntisymm String strLeP :=
  ⟨fun s t h₁ h₂ => by
    cases s; cases t
    exact congrArg String.mk (strLeb_antisymm _ _ h₁ h₂)⟩

/-! ### src/accumulate.py — the accumulation pipeline -/

/-- `accumulated_counts[word] += 1` on a `defaultdict(int)`, modelled as an
insertion-ordered association list (Python dicts preserve insertion order):
an existing key is incremented in place, a new key is appended with count 1. -/
def updateCount : List (String × Nat) → String → List (String × Nat)
  | [], w => [(w, 1)]
  | (k, v) :: rest, w =>
    if k = w then (k, v + 1) :: rest else (k, v) :: updateCount rest w

/-- The `for word in words: accumulated_counts[word] += 1` loop. -/
def addWords (acc : List (String × Nat)) (words : List String) :
    List (String × Nat) :=
  words.foldl updateCount acc

/-- Dictionary lookup with the table's fill value `0`
(`df.fillna(0)`: a missing (date, word) cell reads as zero). -/
def lookupD : List (String × Nat) → String → Nat
  | [], _ => 0
  | (k, v) :: rest, w => if k = w then v else lookupD rest w

/-- Whether the dictionary holds the key at all (a missing key is a NaN cell
in the raw DataFrame, before `fillna`). -/
def hasKey : List (String × Nat) → String → Bool
  | [], _ => false
  | (k, _) :: rest, w => if k = w then true else hasKey rest w

/-- One row of `all_data`: `{'date': date_str, **accumulated_counts}`. -/
structure Row where
  date : String
  counts : List (String × Nat)
deriving DecidableEq, Repr

/-- A cell of the filled table: the word's cumulative count in this row,
zero when the word has not yet been introduced. -/
def Row.cell (r : Row) (w : String) : Nat := lookupD r.counts w

/-- `f.startswith('palabras_') and f.endswith('.txt')`: Python's
`startswith`/`endswith` are prefix/suffix tests on the character sequence. -/
def matchesSnapshot (f : String) : Bool :=
  "palabras_".data.isPrefixOf f.data && ".txt".data.isSuffixOf f.data

/-- `date_str = file_name.replace("palabras_", "").replace(".txt", "")`. -/
def extractDate (fileName : String) : String :=
  replaceAll (replaceAll fileName "palabras_" "") ".txt" ""

/-- `sorted([f for f in os.listdir(directory) if ...])`: Python's `sorted` is
a stable sort under lexicographic (code-point) string order; any stable sort
with respect to the same total preorder produces the same list. -/
def sortedFileNames (listing : List String) : List String :=
  (listing.filter matchesSnapshot).insertionSort strLeP

/-- The `for file_name in file_names:` loop body: accumulate the file's words
into the running counter and append a snapshot row of the counter. -/
def processRows (content : String → List String) :
    List String → List (String × Nat) → List Row
  | [], _ => []
  | f :: fs, acc =>
    let acc2 := addWords acc (content f)
    { date := extractDate f, counts := acc2 } :: processRows content fs acc2

/-- `process_files_in_directory`: filter and sort the directory listing, then
run the accumulation loop starting from the empty counter. -/
def process_files_in_directory (listing : List String)
    (content : String → List String) : List Row :=
  processRows content (sortedFileNames listing) []

/-! ### The DataFrame view: columns, CSV export, melt, iloc -/

/-- Insert the keys of one row dict into the running column list, keeping
first-appearance order (how `pd.DataFrame(list_of_dicts)` builds columns). -/
def addNewKeys (cols : List String) (keys : List String) : List String :=
  keys.foldl (fun cs k => if k ∈ cs then cs else cs ++ [k]) cols

/-- The column contribution of one row dict: `'date'` first, then its words
in insertion order. -/
def dfStep (cs : List String) (r : Row) : List String :=
  addNewKeys cs ("date" :: r.counts.map Prod.fst)

/-- The columns of `pd.DataFrame(all_data)`: scan the row dicts in order,
keeping the first-appearance order of their keys. -/
def dfColumns (rows : List Row) : List String :=
  rows.foldl dfStep []

/-- The word columns of the table, in column order. -/
def wordColumns (rows : List Row) : List String :=
  (dfColumns rows).filter (fun c => c ≠ "date")

/-- A column of `pd.DataFrame(all_data)` is float64 exactly when some row dict
lacks the key (the missing cell is NaN, promoting the column to float; after
`fillna(0)` the column stays float64). -/
def colIsFloat (rows : List Row) (w : String) : Bool :=
  rows.any (fun r => !(hasKey r.counts w))

/-- How `to_csv` prints one count cell: an int64 column prints bare integers,
a float64 column prints trailing-`.0` floats (the counts are small naturals,
exactly representable). -/
def csvCell (rows : List Row) (r : Row) (w : String) : String :=
  if colIsFloat rows w then toString (r.cell w) ++ ".0" else toString (r.cell w)

/-- One data line of `df.to_csv(index=False)`. -/
def csvDataLine (rows : List Row) (r : Row) : String :=
  String.intercalate "," (r.date :: (wordColumns rows).map (csvCell rows r))

/-- `df.to_csv(path, index=False)`, as the list of lines written. -/
def to_csv (rows : List Row) : List String :=
  String.intercalate "," (dfColumns rows) :: rows.map (csvDataLine rows)

/-- `df.melt(id_vars=["date"], var_name="word", value_name="count")`:
raises `KeyError` when `'date'` is not among the columns (the empty-directory
case); otherwise produces the long-form (date, word, count) triples. -/
def meltTable (rows : List Row) : Except String (List (String × String × Nat)) :=
  if "date" ∈ dfColumns rows then
    Except.ok ((wordColumns rows).flatMap fun w =>
      rows.map fun r => (r.date, w, r.cell w))
  else
    Except.error "KeyError: date"

/-- `df.iloc[-1]`: the last row, raising `IndexError` on an empty frame. -/
def ilocLast (rows : List Row) : Except String Row :=
  match rows.getLast? with
  | some r => Except.ok r
  | none => Except.error "IndexError: single positional indexer is out-of-bounds"

/-- The comparison of `sort_values(by='count', ascending=False)`: descending
by the count component. -/
def descCount (p q : String × Nat) : Prop := q.2 ≤ p.2

instance : DecidableRel descCount := fun p q =>
  inferInstanceAs (Decidable (q.2 ≤ p.2))

instance : IsTotal (String × Nat) descCount :=
  ⟨fun p q => Nat.le_total q.2 p.2⟩

instance : IsTrans (String × Nat) descCount :=
  ⟨fun _ _ _ h₁ h₂ => Nat.le_trans h₂ h₁⟩

/-- `save_last_row_as_png`, up to the selection of the plotted data:
take the last row, drop the `'date'` entry (leaving (word, count) pairs in
column order), sort by count descending with pandas' stable descending
`sort_values`, and keep the first 15 (`head(15)`). -/
def save_last_row_top15 (rows : List Row) :
    Except String (List (String × Nat)) :=
  match ilocLast rows with
  | Except.error e => Except.error e
  | Except.ok r =>
    let pairs := (wordColumns rows).map fun w => (w, r.cell w)
    Except.ok ((pairs.insertionSort descCount).take 15)

/-- The accumulator state after folding a list of files into `acc`
(the value of `accumulated_counts` after some iterations of the main loop). -/
def accumAfter (content : String → List String) (acc : List (String × Nat))
    (fs : List String) : List (String × Nat) :=
  fs.foldl (fun a f => addWords a (content f)) acc

/-! ### src/scraper.py — the collector -/

/-- An observable side effect of one collector run. -/
inductive Effect where
  | printMsg (msg : String)
  | fetch (url : String)
  | write (path : String) (lines : List String)
deriving DecidableEq, Repr

/-- `scraper.main(output_dir)`, as the sequence of effects it performs.
`fileExists` is the result of `os.path.exists(file_path)` for today's
snapshot path; `parseResult` is the outcome of fetching and parsing the page
(`some words` when the expected div is found, `none` otherwise). -/
def scraper_main (filePath : String) (fileExists : Bool)
    (parseResult : Option (List String)) : List Effect :=
  if fileExists then
    [Effect.printMsg ("El archivo " ++ filePath ++
      " ya existe. No se escribirá nada.")]
  else
    Effect.fetch "https://academia.gal/dicionario" ::
      match parseResult with
      | some words =>
        [Effect.write filePath words,
         Effect.printMsg ("Las palabras más buscadas han sido escritas en " ++
           filePath)]
      | none => [Effect.printMsg "No se encontró el div específico."]

/-! ### Concrete example directories -/

/-- The spec's example directory listing: two snapshot files (listed out of
date order, as `os.listdir` may) plus an unrelated file. -/
def demoListing : List String :=
  ["palabras_2024_01_02.txt", "palabras_2024_01_01.txt", "README.md"]

/-- The spec's example snapshot contents:
`palabras_2024_01_01.txt` = ["sol", "mar"], `palabras_2024_01_02.txt` = ["sol"]. -/
def demoContent : String → List String := fun f =>
  if f = "palabras_2024_01_01.txt" then ["sol", "mar"]
  else if f = "palabras_2024_01_02.txt" then ["sol"] else []

/-- A directory whose second snapshot introduces a word (`mar`) absent from
the first, so the `mar` column of the raw DataFrame holds a NaN. -/
def lateListing : List String :=
  ["palabras_2024_01_01.txt", "palabras_2024_01_02.txt"]

/-- Day 1: ["sol"]; day 2: ["mar"]. -/
def lateContent : String → List String := fun f =>
  if f = "palabras_2024_01_01.txt" then ["sol"]
  else if f = "palabras_2024_01_02.txt" then ["mar"] else []

/-- A single-snapshot directory with 16 distinct words, for the top-15 cut. -/
def wideListing : List String := ["palabras_2024_01_01.txt"]

/-- Sixteen distinct words, each occurring once. -/
def wideContent : String → List String := fun _ =>
  ["w01", "w02", "w03", "w04", "w05", "w06", "w07", "w08",
   "w09", "w10", "w11", "w12", "w13", "w14", "w15", "w16"]

/-! ### Zero-padded snapshot dates -/

/-- A calendar date as embedded in a snapshot filename. -/
structure SDate where
  year : Nat
  month : Nat
  day : Nat
deriving DecidableEq, Repr

/-- The ranges the zero-padded `YYYY_MM_DD` format can represent. -/
def SDate.Valid (d : SDate) : Prop :=
  d.year < 10000 ∧ d.month < 100 ∧ d.day < 100

instance (d : SDate) : Decidable d.Valid :=
  inferInstanceAs (Decidable (_ ∧ _ ∧ _))

/-- The decimal digit character for a digit `n < 10`. -/
def digitChar (n : Nat) : Char := Char.ofNat (48 + n)

/-- The ten characters of the zero-padded `YYYY_MM_DD` date string. -/
def dateChars (d : SDate) : List Char :=
  [digitChar (d.year / 1000 % 10), digitChar (d.year / 100 % 10),
   digitChar (d.year / 10 % 10), digitChar (d.year % 10), '_',
   digitChar (d.month / 10 % 10), digitChar (d.month % 10), '_',
   digitChar (d.day / 10 % 10), digitChar (d.day % 10)]

/-- The zero-padded `YYYY_MM_DD` date string. -/
def dateStr (d : SDate) : String := String.mk (dateChars d)

/-- The snapshot filename `palabras_<date>.txt` embedding a date. -/
def mkFilename (d : SDate) : String := "palabras_" ++ dateStr d ++ ".txt"

/-- Strict chronological order on dates. -/
def SDate.lt (a b : SDate) : Prop :=
  a.year < b.year ∨ (a.year = b.year ∧
    (a.month < b.month ∨ (a.month = b.month ∧ a.day < b.day)))

/-- A date collapsed to one number; on valid dates this orders exactly like
`SDate.lt`. -/
def dateVal (d : SDate) : Nat := d.year * 10000 + d.month * 100 + d.day

/-! ### Counting lemmas -/

theorem lookupD_updateCount (acc : List (String × Nat)) (u w : String) :
    lookupD (updateCount acc u) w = lookupD acc w + if u = w then 1 else 0 := by
  induction acc with
  | nil => by_cases h : u = w <;> simp [updateCount, lookupD, h, Ne.symm]
  | cons kv rest ih =>
    obtain ⟨k, v⟩ := kv
    by_cases hk : k = u
    · subst hk
      by_cases hw : k = w <;> simp [updateCount, lookupD, hw]
    · by_cases hw : k = w
      · subst hw
        have : k ≠ u := hk
        simp [updateCount, lookupD, hk, Ne.symm hk]
      · simp [updateCount, lookupD, hk, hw, ih]

theorem lookupD_addWords (ws : List String) (acc : List (String × Nat))
    (w : String) :
    lookupD (addWords acc ws) w = lookupD acc w + ws.count w := by
  induction ws generalizing acc with
  | nil => simp [addWords]
  | cons u ws ih =>
    show lookupD (addWords (updateCount acc u) ws) w = _
    rw [ih, lookupD_updateCount, List.count_cons]
    have : (u == w) = decide (u = w) := by rfl
    by_cases h : u = w <;> simp [h] <;> omega

theorem hasKey_iff_mem (acc : List (String × Nat)) (w : String) :
    hasKey acc w = true ↔ w ∈ acc.map Prod.fst := by
  induction acc with
  | nil => simp [hasKey]
  | cons kv rest ih =>
    obtain ⟨k, v⟩ := kv
    by_cases h : k = w
    · simp [hasKey, h]
    · simp [hasKey, h, ih, Ne.symm h]

theorem hasKey_updateCount (acc : List (String × Nat)) (u w : String) :
    hasKey (updateCount acc u) w = true ↔ hasKey acc w = true ∨ u = w := by
  induction acc with
  | nil =>
    by_cases huw : u = w <;> simp [updateCount, hasKey, huw]
  | cons kv rest ih =>
    obtain ⟨k, v⟩ := kv
    by_cases hk : k = u
    · have e : updateCount ((k, v) :: rest) u = (k, v + 1) :: rest := by
        simp [updateCount, hk]
      rw [e]
      by_cases hw : k = w
      · simp [hasKey, hw]
      · have huw : ¬ u = w := fun h => hw (hk.trans h)
        simp [hasKey, hw, huw]
    · have e : updateCount ((k, v) :: rest) u = (k, v) :: updateCount rest u := by
        simp [updateCount, hk]
      rw [e]
      by_cases hw : k = w
      · simp [hasKey, hw]
      · simp [hasKey, hw, ih]

theorem hasKey_addWords (ws : List String) (acc : List (String × Nat))
    (w : String) :
    hasKey (addWords acc ws) w = true ↔ hasKey acc w = true ∨ w ∈ ws := by
  induction ws generalizing acc with
  | nil => simp [addWords]
  | cons u ws ih =>
    show hasKey (addWords (updateCount acc u) ws) w = true ↔ _
    rw [ih, hasKey_updateCount]
    constructor
    · rintro ((h | h) | h)
      · exact Or.inl h
      · exact Or.inr (by simp [h])
      · exact Or.inr (by simp [h])
    · rintro (h | h)
      · exact Or.inl (Or.inl h)
      · rcases List.mem_cons.mp h with h | h
        · exact Or.inl (Or.inr h.symm)
        · exact Or.inr h

/-! ### Structure of the row list produced by the main loop -/

theorem processRows_length (content : String → List String) :
    ∀ (fs : List String) (acc : List (String × Nat)),
      (processRows content fs acc).length = fs.length := by
  intro fs
  induction fs with
  | nil => intro acc; rfl
  | cons f fs ih => intro acc; simp [processRows, ih]

theorem processRows_map_date (content : String → List String) :
    ∀ (fs : List String) (acc : List (String × Nat)),
      (processRows content fs acc).map Row.date = fs.map extractDate := by
  intro fs
  induction fs with
  | nil => intro acc; rfl
  | cons f fs ih => intro acc; simp [processRows, ih]

theorem processRows_getElem? (content : String → List String) :
    ∀ (fs : List String) (acc : List (String × Nat)) (i : Nat),
      (processRows content fs acc)[i]? =
        fs[i]?.map fun f =>
          Row.mk (extractDate f) (accumAfter content acc (fs.take (i + 1))) := by
  intro fs
  induction fs with
  | nil => intro acc i; rfl
  | cons f fs ih =>
    intro acc i
    match i with
    | 0 =>
      simp [processRows, accumAfter]
    | i + 1 =>
      simp only [processRows, List.getElem?_cons_succ, ih, List.take_succ_cons]
      rfl

theorem lookupD_accumAfter (content : String → List String) :
    ∀ (fs : List String) (acc : List (String × Nat)) (w : String),
      lookupD (accumAfter content acc fs) w =
        lookupD acc w + (fs.map fun f => (content f).count w).sum := by
  intro fs
  induction fs with
  | nil => intro acc w; simp [accumAfter]
  | cons f fs ih =>
    intro acc w
    show lookupD (accumAfter content (addWords acc (content f)) fs) w = _
    rw [ih, lookupD_addWords]
    simp
    omega

theorem getLast?_cons_ne {α : Type} (a : α) :
    ∀ (l : List α), l ≠ [] → (a :: l).getLast? = l.getLast?
  | [], h => absurd rfl h
  | _ :: _, _ => List.getLast?_cons_cons ..

theorem processRows_getLast? (content : String → List String) :
    ∀ (fs : List String) (acc : List (String × Nat)), fs ≠ [] →
      ∃ dl, (processRows content fs acc).getLast? =
        some (Row.mk dl (accumAfter content acc fs)) := by
  intro fs
  induction fs with
  | nil => intro acc h; exact absurd rfl h
  | cons f fs ih =>
    intro acc _
    cases fs with
    | nil => exact ⟨extractDate f, rfl⟩
    | cons f' fs' =>
      obtain ⟨dl, hdl⟩ := ih (addWords acc (content f)) (by simp)
      refine ⟨dl, ?_⟩
      have hne : processRows content (f' :: fs') (addWords acc (content f)) ≠ [] := by
        intro h
        have := processRows_length content (f' :: fs') (addWords acc (content f))
        rw [h] at this
        simp at this
      show (Row.mk (extractDate f) (addWords acc (content f)) ::
        processRows content (f' :: fs') (addWords acc (content f))).getLast? = _
      rw [getLast?_cons_ne _ _ hne, hdl]
      rfl

theorem sum_take_le_sum_take (m : List Nat) {i j : Nat} (h : i ≤ j) :
    (m.take i).sum ≤ (m.take j).sum := by
  have e : m.take i = (m.take j).take i := by
    rw [List.take_take, Nat.min_eq_left h]
  rw [e]
  conv_rhs => rw [← List.take_append_drop i (m.take j)]
  rw [List.sum_append]
  exact Nat.le_add_right _ _

/-- Claim C1: `process_files_in_directory` processes the matching snapshot
files in sorted order; the i-th row is labeled with the i-th file's extracted
date and each of its cells is the cumulative occurrence count of that word
over the first i+1 files (so a word occurring twice in one file counts twice,
and a word not yet introduced reads 0). On the spec's example directory the
table is row "2024_01_01" (the date 2024-01-01): sol 1, mar 1, then row
"2024_01_02" (the date 2024-01-02): sol 2, mar 1. -/
theorem claim_C1 :
    (∀ (listing : List String) (content : String → List String) (i : Nat)
      (f : String), (sortedFileNames listing)[i]? = some f →
        ∃ r, (process_files_in_directory listing content)[i]? = some r ∧
          r.date = extractDate f ∧
          ∀ w, r.cell w =
            (((sortedFileNames listing).take (i + 1)).map
              fun g => (content g).count w).sum) ∧
    process_files_in_directory demoListing demoContent =
      [Row.mk "2024_01_01" [("sol", 1), ("mar", 1)],
       Row.mk "2024_01_02" [("sol", 2), ("mar", 1)]] ∧
    (∀ r, (process_files_in_directory demoListing demoContent)[0]? = some r →
      r.cell "sol" = 1 ∧ r.cell "mar" = 1) ∧
    (∀ r, (process_files_in_directory demoListing demoContent)[1]? = some r →
      r.cell "sol" = 2 ∧ r.cell "mar" = 1) := by
  refine ⟨?_, by decide, by decide, by decide⟩
  intro listing content i f hf
  unfold process_files_in_directory
  rw [processRows_getElem?, hf]
  refine ⟨_, rfl, rfl, ?_⟩
  intro w
  simp only [Row.cell]
  rw [lookupD_accumAfter]
  simp [lookupD]

theorem claim_C1_witness :
    (sortedFileNames demoListing)[1]? = some "palabras_2024_01_02.txt" ∧
    ∃ r, (process_files_in_directory demoListing demoContent)[1]? = some r ∧
      r.date = extractDate "palabras_2024_01_02.txt" ∧
      ∀ w, r.cell w = (((sortedFileNames demoListing).take 2).map
        fun g => (demoContent g).count w).sum :=
  ⟨by decide,
   claim_C1.1 demoListing demoContent 1 "palabras_2024_01_02.txt" (by decide)⟩

/-- Claim C2: for any directory and any word appearing as a column of the
table, the word's cumulative count is monotonically non-decreasing along the
rows in their (ascending date) order. -/
theorem claim_C2 (listing : List String) (content : String → List String)
    (w : String)
    (hw : w ∈ wordColumns (process_files_in_directory listing content))
    (i j : Nat) (ri rj : Row) (hij : i ≤ j)
    (hi : (process_files_in_directory listing content)[i]? = some ri)
    (hj : (process_files_in_directory listing content)[j]? = some rj) :
    ri.cell w ≤ rj.cell w := by
  unfold process_files_in_directory at hi hj
  rw [processRows_getElem?] at hi hj
  cases hfi : (sortedFileNames listing)[i]? with
  | none => rw [hfi] at hi; exact absurd hi (by simp)
  | some fi =>
    cases hfj : (sortedFileNames listing)[j]? with
    | none => rw [hfj] at hj; exact absurd hj (by simp)
    | some fj =>
      rw [hfi] at hi
      rw [hfj] at hj
      have hri := (Option.some.inj hi).symm
      have hrj := (Option.some.inj hj).symm
      subst hri
      subst hrj
      simp only [Row.cell]
      rw [lookupD_accumAfter, lookupD_accumAfter]
      simp only [lookupD, Nat.zero_add]
      rw [List.map_take, List.map_take]
      exact sum_take_le_sum_take _ (by omega)

theorem claim_C2_witness :
    "sol" ∈ wordColumns (process_files_in_directory demoListing demoContent) ∧
    (0 : Nat) ≤ 1 ∧
    (process_files_in_directory demoListing demoContent)[0]? =
      some (Row.mk "2024_01_01" [("sol", 1), ("mar", 1)]) ∧
    (process_files_in_directory demoListing demoContent)[1]? =
      some (Row.mk "2024_01_02" [("sol", 2), ("mar", 1)]) ∧
    (Row.mk "2024_01_01" [("sol", 1), ("mar", 1)]).cell "sol" ≤
      (Row.mk "2024_01_02" [("sol", 2), ("mar", 1)]).cell "sol" :=
  ⟨by decide, by decide, by decide, by decide,
   claim_C2 demoListing demoContent "sol" (by decide) 0 1 _ _ (by decide)
     (by decide) (by decide)⟩

/-- Claim C3: for any word present in at least one matching snapshot file,
its count in the last row equals the total number of lines equal to that word
summed across all matching snapshot files. -/
theorem claim_C3 (listing : List String) (content : String → List String)
    (w : String)
    (hw : ∃ f ∈ listing, matchesSnapshot f = true ∧ w ∈ content f) :
    ∃ last, (process_files_in_directory listing content).getLast? = some last ∧
      last.cell w =
        ((listing.filter matchesSnapshot).map
          fun f => (content f).count w).sum := by
  obtain ⟨f, hfl, hfm, -⟩ := hw
  have hffilter : f ∈ listing.filter matchesSnapshot :=
    List.mem_filter.mpr ⟨hfl, hfm⟩
  have hperm : List.Perm (sortedFileNames listing)
      (listing.filter matchesSnapshot) :=
    List.perm_insertionSort strLeP _
  have hfs : sortedFileNames listing ≠ [] := by
    intro h
    have h2 : listing.filter matchesSnapshot = [] := by
      have h3 := hperm
      rw [h] at h3
      exact h3.symm.eq_nil
    rw [h2] at hffilter
    exact absurd hffilter (List.not_mem_nil f)
  obtain ⟨dl, hdl⟩ := processRows_getLast? content (sortedFileNames listing) [] hfs
  refine ⟨_, hdl, ?_⟩
  simp only [Row.cell]
  rw [lookupD_accumAfter]
  simp only [lookupD, Nat.zero_add]
  exact (hperm.map fun g => (content g).count w).sum_eq

theorem claim_C3_witness :
    (∃ f ∈ demoListing, matchesSnapshot f = true ∧ "sol" ∈ demoContent f) ∧
    ∃ last, (process_files_in_directory demoListing demoContent).getLast? =
        some last ∧
      last.cell "sol" = ((demoListing.filter matchesSnapshot).map
        fun f => (demoContent f).count "sol").sum :=
  ⟨⟨"palabras_2024_01_01.txt", by decide, by decide, by decide⟩,
   claim_C3 demoListing demoContent "sol"
     ⟨"palabras_2024_01_01.txt", by decide, by decide, by decide⟩⟩

/-! ### Column-list lemmas -/

theorem addNewKeys_cons (cs : List String) (k : String) (ks : List String) :
    addNewKeys cs (k :: ks) =
      addNewKeys (if k ∈ cs then cs else cs ++ [k]) ks := rfl

theorem mem_addNewKeys (ks : List String) :
    ∀ cs x, x ∈ cs → x ∈ addNewKeys cs ks := by
  induction ks with
  | nil => intro cs x hx; exact hx
  | cons k ks ih =>
    intro cs x hx
    rw [addNewKeys_cons]
    by_cases hk : k ∈ cs
    · rw [if_pos hk]; exact ih cs x hx
    · rw [if_neg hk]; exact ih _ x (List.mem_append_left _ hx)

theorem addNewKeys_nodup (ks : List String) :
    ∀ cs, cs.Nodup → (addNewKeys cs ks).Nodup := by
  induction ks with
  | nil => intro cs h; exact h
  | cons k ks ih =>
    intro cs h
    rw [addNewKeys_cons]
    by_cases hk : k ∈ cs
    · rw [if_pos hk]; exact ih cs h
    · rw [if_neg hk]
      refine ih _ ?_
      rw [List.nodup_append]
      exact ⟨h, List.nodup_singleton k, by simp [List.disjoint_singleton, hk]⟩

theorem addNewKeys_of_subset (ks : List String) :
    ∀ cs, (∀ k ∈ ks, k ∈ cs) → addNewKeys cs ks = cs := by
  induction ks with
  | nil => intro cs _; rfl
  | cons k ks ih =>
    intro cs h
    rw [addNewKeys_cons, if_pos (h k (by simp))]
    exact ih cs fun x hx => h x (by simp [hx])

theorem addNewKeys_of_nodup (ks : List String) :
    ∀ cs, ks.Nodup →
      addNewKeys cs ks = cs ++ ks.filter (fun k => decide (k ∉ cs)) := by
  induction ks with
  | nil => intro cs _; simp [addNewKeys]
  | cons k ks ih =>
    intro cs hnd
    have hknotin : k ∉ ks := (List.nodup_cons.mp hnd).1
    have hnd' : ks.Nodup := (List.nodup_cons.mp hnd).2
    rw [addNewKeys_cons]
    by_cases hk : k ∈ cs
    · rw [if_pos hk, ih cs hnd']
      congr 1
      rw [List.filter_cons]
      have hd : decide (k ∉ cs) = false := by simp [hk]
      rw [hd]
      simp
    · rw [if_neg hk, ih _ hnd']
      rw [List.filter_cons]
      have hd : decide (k ∉ cs) = true := by simp [hk]
      rw [hd, if_pos rfl, List.append_assoc, List.singleton_append]
      congr 2
      apply List.filter_congr
      intro x hx
      have hxk : x ≠ k := fun e => hknotin (e ▸ hx)
      simp [List.mem_append, hxk]

/-- Membership in the running column list is preserved by later rows. -/
theorem mem_foldl_dfStep (rows : List Row) :
    ∀ cs x, x ∈ cs → x ∈ rows.foldl dfStep cs := by
  induction rows with
  | nil => intro cs x hx; exact hx
  | cons r rows ih =>
    intro cs x hx
    exact ih _ x (mem_addNewKeys _ _ _ hx)

theorem nodup_foldl_dfStep (rows : List Row) :
    ∀ cs, cs.Nodup → (rows.foldl dfStep cs).Nodup := by
  induction rows with
  | nil => intro cs h; exact h
  | cons r rows ih =>
    intro cs h
    exact ih _ (addNewKeys_nodup _ _ h)

theorem dfColumns_nodup (rows : List Row) : (dfColumns rows).Nodup :=
  nodup_foldl_dfStep rows [] List.nodup_nil

theorem date_mem_dfColumns (r : Row) (rest : List Row) :
    "date" ∈ dfColumns (r :: rest) := by
  show "date" ∈ List.foldl dfStep (dfStep [] r) rest
  refine mem_foldl_dfStep rest _ _ ?_
  show "date" ∈ addNewKeys [] ("date" :: r.counts.map Prod.fst)
  rw [addNewKeys_cons, if_neg (List.not_mem_nil _)]
  exact mem_addNewKeys _ _ _ (by simp)

/-- Claim C4: when today's snapshot file already exists, the collector run
performs no write effect at all — the run consists of a single console
message, so the existing file's contents are untouched and a re-run is
idempotent on the filesystem. -/
theorem claim_C4 (filePath : String) (parseResult : Option (List String)) :
    scraper_main filePath true parseResult =
      [Effect.printMsg ("El archivo " ++ filePath ++
        " ya existe. No se escribirá nada.")] ∧
    ∀ p lines, Effect.write p lines ∉ scraper_main filePath true parseResult := by
  refine ⟨rfl, ?_⟩
  intro p lines h
  simp [scraper_main] at h

/-- Claim C6 as stated is false at a concrete run: when the snapshot file
already exists, src/scraper.py returns at the existence check, before the
HTTP request, so no fetch effect occurs at all. -/
theorem claim_C6_counterexample :
    Effect.fetch "https://academia.gal/dicionario" ∉
      scraper_main "out/palabras_2025_06_01.txt" true (some ["casa"]) := by
  decide

/-- Claim C6 amended: the existence check comes first; on a run where the
file exists no fetch (and no write) is performed, and on a run where it does
not exist the fetch happens unconditionally as the first effect, before any
write. -/
theorem claim_C6_amended (filePath : String)
    (parseResult : Option (List String)) :
    (∀ u, Effect.fetch u ∉ scraper_main filePath true parseResult) ∧
    (scraper_main filePath false parseResult).head? =
      some (Effect.fetch "https://academia.gal/dicionario") := by
  constructor
  · intro u h
    simp [scraper_main] at h
  · cases parseResult <;> rfl

/-- Claim C9: with no matching snapshot file in the directory the table is
empty, the chart's `melt(id_vars=["date"])` raises `KeyError` and the PNG
export's `iloc[-1]` raises `IndexError`; with at least one matching file
both succeed. -/
theorem claim_C9 (listing : List String) (content : String → List String) :
    (listing.filter matchesSnapshot = [] →
      process_files_in_directory listing content = [] ∧
      meltTable (process_files_in_directory listing content) =
        Except.error "KeyError: date" ∧
      ilocLast (process_files_in_directory listing content) =
        Except.error
          "IndexError: single positional indexer is out-of-bounds") ∧
    (listing.filter matchesSnapshot ≠ [] →
      (∃ m, meltTable (process_files_in_directory listing content) =
        Except.ok m) ∧
      ∃ r, ilocLast (process_files_in_directory listing content) =
        Except.ok r) := by
  constructor
  · intro hempty
    have hrows : process_files_in_directory listing content = [] := by
      unfold process_files_in_directory sortedFileNames
      rw [hempty]
      rfl
    rw [hrows]
    exact ⟨rfl, rfl, rfl⟩
  · intro hne
    have hfs : sortedFileNames listing ≠ [] := by
      intro h
      have hperm : List.Perm (sortedFileNames listing)
          (listing.filter matchesSnapshot) :=
        List.perm_insertionSort strLeP _
      rw [h] at hperm
      exact hne hperm.nil_eq.symm
    have hrows : process_files_in_directory listing content ≠ [] := by
      intro h
      have hl := processRows_length content (sortedFileNames listing) []
      unfold process_files_in_directory at h
      rw [h] at hl
      exact hfs (List.length_eq_zero.mp hl.symm)
    constructor
    · have hmem : "date" ∈ dfColumns (process_files_in_directory listing content) := by
        cases hrows2 : process_files_in_directory listing content with
        | nil => exact absurd hrows2 hrows
        | cons r rest => exact date_mem_dfColumns r rest
      refine ⟨(wordColumns (process_files_in_directory listing content)).flatMap
        fun w => (process_files_in_directory listing content).map
          fun r => (r.date, w, r.cell w), ?_⟩
      unfold meltTable
      rw [if_pos hmem]
    · obtain ⟨dl, hdl⟩ :=
        processRows_getLast? content (sortedFileNames listing) [] hfs
      refine ⟨Row.mk dl (accumAfter content [] (sortedFileNames listing)), ?_⟩
      unfold ilocLast
      unfold process_files_in_directory
      rw [hdl]

/-- Claim C10: the table depends only on the multiset of matching filenames
and the content function: listings that are permutations of one another
(directory enumeration order) produce identical tables, because the
filenames are sorted before processing. -/
theorem claim_C10 (l₁ l₂ : List String) (content : String → List String)
    (hp : List.Perm l₁ l₂) :
    process_files_in_directory l₁ content =
      process_files_in_directory l₂ content := by
  have hsort : sortedFileNames l₁ = sortedFileNames l₂ :=
    List.eq_of_perm_of_sorted
      ((List.perm_insertionSort strLeP _).trans
        ((hp.filter matchesSnapshot).trans
          (List.perm_insertionSort strLeP _).symm))
      (List.sorted_insertionSort strLeP _)
      (List.sorted_insertionSort strLeP _)
  unfold process_files_in_directory
  rw [hsort]

theorem claim_C10_witness :
    List.Perm demoListing
      ["README.md", "palabras_2024_01_01.txt", "palabras_2024_01_02.txt"] ∧
    process_files_in_directory demoListing demoContent =
      process_files_in_directory
        ["README.md", "palabras_2024_01_01.txt", "palabras_2024_01_02.txt"]
        demoContent :=
  ⟨by decide, claim_C10 _ _ demoContent (by decide)⟩

/-! ### Characterization of the DataFrame columns and CSV cells -/

theorem mem_addNewKeys_iff (ks : List String) :
    ∀ cs x, x ∈ addNewKeys cs ks ↔ x ∈ cs ∨ x ∈ ks := by
  induction ks with
  | nil => intro cs x; simp [addNewKeys]
  | cons k ks ih =>
    intro cs x
    rw [addNewKeys_cons]
    by_cases hk : k ∈ cs
    · rw [if_pos hk, ih]
      constructor
      · rintro (h | h)
        · exact Or.inl h
        · exact Or.inr (by simp [h])
      · rintro (h | h)
        · exact Or.inl h
        · rcases List.mem_cons.mp h with rfl | h
          · exact Or.inl hk
          · exact Or.inr h
    · rw [if_neg hk, ih]
      simp only [List.mem_append, List.mem_singleton, List.mem_cons]
      tauto

theorem mem_foldl_dfStep_iff (rows : List Row) :
    ∀ cs x, x ∈ rows.foldl dfStep cs ↔
      x ∈ cs ∨ ∃ r ∈ rows, x = "date" ∨ x ∈ r.counts.map Prod.fst := by
  induction rows with
  | nil => intro cs x; simp
  | cons r rows ih =>
    intro cs x
    show x ∈ rows.foldl dfStep (dfStep cs r) ↔ _
    rw [ih]
    unfold dfStep
    rw [mem_addNewKeys_iff]
    simp only [List.mem_cons]
    constructor
    · rintro ((h | h) | ⟨r', hr', h⟩)
      · exact Or.inl h
      · exact Or.inr ⟨r, Or.inl rfl, h⟩
      · exact Or.inr ⟨r', Or.inr hr', h⟩
    · rintro (h | ⟨r', hr', h⟩)
      · exact Or.inl (Or.inl h)
      · rcases hr' with rfl | hr'
        · exact Or.inl (Or.inr h)
        · exact Or.inr ⟨r', hr', h⟩

theorem mem_keys_addWords (ws : List String) (acc : List (String × Nat))
    (w : String) :
    w ∈ (addWords acc ws).map Prod.fst ↔ w ∈ acc.map Prod.fst ∨ w ∈ ws := by
  rw [← hasKey_iff_mem, ← hasKey_iff_mem]
  constructor
  · intro h
    rcases (hasKey_addWords ws acc w).mp h with h | h
    · exact Or.inl h
    · exact Or.inr h
  · intro h
    exact (hasKey_addWords ws acc w).mpr h

theorem exists_row_mem_keys (content : String → List String) :
    ∀ (fs : List String) (acc : List (String × Nat)) (w : String),
      (∃ r ∈ processRows content fs acc, w ∈ r.counts.map Prod.fst) ↔
        ((fs ≠ [] ∧ w ∈ acc.map Prod.fst) ∨ ∃ f ∈ fs, w ∈ content f) := by
  intro fs
  induction fs with
  | nil => intro acc w; simp [processRows]
  | cons f fs ih =>
    intro acc w
    have hrows : processRows content (f :: fs) acc =
        Row.mk (extractDate f) (addWords acc (content f)) ::
          processRows content fs (addWords acc (content f)) := rfl
    rw [hrows]
    constructor
    · rintro ⟨r, hr, hw⟩
      rcases List.mem_cons.mp hr with rfl | hr
      · rcases (mem_keys_addWords _ _ _).mp hw with h | h
        · exact Or.inl ⟨by simp, h⟩
        · exact Or.inr ⟨f, by simp, h⟩
      · rcases (ih _ w).mp ⟨r, hr, hw⟩ with ⟨-, h⟩ | ⟨f', hf', h⟩
        · rcases (mem_keys_addWords _ _ _).mp h with h | h
          · exact Or.inl ⟨by simp, h⟩
          · exact Or.inr ⟨f, by simp, h⟩
        · exact Or.inr ⟨f', by simp [hf'], h⟩
    · rintro (⟨-, h⟩ | ⟨f', hf', h⟩)
      · exact ⟨Row.mk (extractDate f) (addWords acc (content f)), by simp,
          (mem_keys_addWords _ _ _).mpr (Or.inl h)⟩
      · rcases List.mem_cons.mp hf' with rfl | hf'
        · exact ⟨Row.mk (extractDate f') (addWords acc (content f')), by simp,
            (mem_keys_addWords _ _ _).mpr (Or.inr h)⟩
        · by_cases hfs : fs = []
          · rw [hfs] at hf'
            exact absurd hf' (List.not_mem_nil f')
          · obtain ⟨r, hr, hw⟩ := (ih (addWords acc (content f)) w).mpr
              (Or.inr ⟨f', hf', h⟩)
            exact ⟨r, by simp [hr], hw⟩

theorem mem_wordColumns_iff (listing : List String)
    (content : String → List String) (w : String) :
    w ∈ wordColumns (process_files_in_directory listing content) ↔
      w ≠ "date" ∧ ∃ f ∈ listing, matchesSnapshot f = true ∧ w ∈ content f := by
  unfold wordColumns
  rw [List.mem_filter]
  unfold dfColumns
  rw [mem_foldl_dfStep_iff]
  simp only [List.not_mem_nil, false_or, decide_eq_true_eq]
  constructor
  · rintro ⟨⟨r, hr, hw⟩, hnd⟩
    rcases hw with rfl | hw
    · exact absurd rfl hnd
    · refine ⟨hnd, ?_⟩
      rcases (exists_row_mem_keys content _ [] w).mp ⟨r, hr, hw⟩ with
        ⟨-, h⟩ | ⟨f, hf, h⟩
      · simp at h
      · have hf2 : f ∈ listing.filter matchesSnapshot := by
          have := (List.perm_insertionSort strLeP
            (listing.filter matchesSnapshot)).mem_iff.mp hf
          exact this
        obtain ⟨hfl, hfm⟩ := List.mem_filter.mp hf2
        exact ⟨f, hfl, hfm, h⟩
  · rintro ⟨hnd, f, hfl, hfm, h⟩
    have hf : f ∈ sortedFileNames listing := by
      unfold sortedFileNames
      rw [(List.perm_insertionSort strLeP _).mem_iff]
      exact List.mem_filter.mpr ⟨hfl, hfm⟩
    obtain ⟨r, hr, hw⟩ := (exists_row_mem_keys content _ [] w).mpr
      (Or.inr ⟨f, hf, h⟩)
    exact ⟨⟨r, hr, Or.inr hw⟩, hnd⟩

theorem addNewKeys_append_exists (ks : List String) :
    ∀ cs, ∃ ex, addNewKeys cs ks = cs ++ ex := by
  induction ks with
  | nil => intro cs; exact ⟨[], by simp [addNewKeys]⟩
  | cons k ks ih =>
    intro cs
    rw [addNewKeys_cons]
    by_cases hk : k ∈ cs
    · rw [if_pos hk]; exact ih cs
    · rw [if_neg hk]
      obtain ⟨ex, hex⟩ := ih (cs ++ [k])
      exact ⟨[k] ++ ex, by rw [hex, List.append_assoc]⟩

theorem foldl_dfStep_append_exists (rows : List Row) :
    ∀ cs, ∃ ex, rows.foldl dfStep cs = cs ++ ex := by
  induction rows with
  | nil => intro cs; exact ⟨[], by simp⟩
  | cons r rows ih =>
    intro cs
    obtain ⟨ex1, hex1⟩ := addNewKeys_append_exists
      ("date" :: r.counts.map Prod.fst) cs
    obtain ⟨ex2, hex2⟩ := ih (cs ++ ex1)
    refine ⟨ex1 ++ ex2, ?_⟩
    show rows.foldl dfStep (dfStep cs r) = _
    rw [dfStep, hex1, hex2, List.append_assoc]

theorem dfColumns_cons_date (r : Row) (rest : List Row) :
    ∃ ex, dfColumns (r :: rest) = "date" :: ex := by
  have h1 : dfStep [] r = addNewKeys ["date"] (r.counts.map Prod.fst) := by
    rw [dfStep, addNewKeys_cons, if_neg (List.not_mem_nil _),
      List.nil_append]
  obtain ⟨ex1, hex1⟩ :=
    addNewKeys_append_exists (r.counts.map Prod.fst) ["date"]
  obtain ⟨ex2, hex2⟩ := foldl_dfStep_append_exists rest (dfStep [] r)
  refine ⟨ex1 ++ ex2, ?_⟩
  show rest.foldl dfStep (dfStep [] r) = _
  rw [hex2, h1, hex1]
  simp

/-- For a non-empty table the column list is `date` followed by the word
columns. -/
theorem dfColumns_eq_date_cons_wordColumns (rows : List Row)
    (hne : rows ≠ []) :
    dfColumns rows = "date" :: wordColumns rows := by
  cases rows with
  | nil => exact absurd rfl hne
  | cons r rest =>
    obtain ⟨ex, hex⟩ := dfColumns_cons_date r rest
    have hnd := dfColumns_nodup (r :: rest)
    rw [hex] at hnd
    unfold wordColumns
    rw [hex, List.filter_cons]
    have hd : decide (("date" : String) ≠ "date") = false := by simp
    rw [hd]
    simp only [Bool.false_eq_true, if_false]
    congr 1
    symm
    rw [List.filter_eq_self]
    intro x hx
    have hxd : x ≠ "date" := by
      intro e
      subst e
      exact (List.nodup_cons.mp hnd).1 hx
    simp [hxd]

/-- Keys already present in the accumulator stay present in every row the
loop appends afterwards. -/
theorem hasKey_processRows_mono (content : String → List String) :
    ∀ (fs : List String) (acc : List (String × Nat)) (r : Row),
      r ∈ processRows content fs acc → ∀ w, hasKey acc w = true →
        hasKey r.counts w = true := by
  intro fs
  induction fs with
  | nil => intro acc r hr; exact absurd hr (List.not_mem_nil r)
  | cons f fs ih =>
    intro acc r hr w hw
    have hrows : processRows content (f :: fs) acc =
        Row.mk (extractDate f) (addWords acc (content f)) ::
          processRows content fs (addWords acc (content f)) := rfl
    rw [hrows] at hr
    have hw2 : hasKey (addWords acc (content f)) w = true :=
      (hasKey_addWords _ _ _).mpr (Or.inl hw)
    rcases List.mem_cons.mp hr with rfl | hr
    · exact hw2
    · exact ih _ r hr w hw2

theorem colIsFloat_eq_false_iff (rows : List Row) (w : String) :
    colIsFloat rows w = false ↔ ∀ r ∈ rows, hasKey r.counts w = true := by
  unfold colIsFloat
  rw [List.any_eq_false]
  constructor
  · intro h r hr
    have := h r hr
    simpa using this
  · intro h r hr
    simpa using h r hr

/-- Claim C7 is false as stated: with day-1 snapshot ["sol"] and day-2
snapshot ["mar"], the `mar` column has a missing cell in the first row
(NaN in the raw DataFrame), is promoted to float64, and `to_csv` writes its
cells as "0.0" and "1.0" — not as integers. -/
theorem claim_C7_counterexample :
    to_csv (process_files_in_directory lateListing lateContent) =
      ["date,sol,mar", "2024_01_01,1,0.0", "2024_01_02,1,1.0"] ∧
    ∃ r ∈ process_files_in_directory lateListing lateContent,
      ∃ w ∈ wordColumns (process_files_in_directory lateListing lateContent),
        csvCell (process_files_in_directory lateListing lateContent) r w ≠
          toString (r.cell w) := by
  refine ⟨by decide, Row.mk "2024_01_01" [("sol", 1)], by decide,
    "mar", by decide, by decide⟩

/-- Claim C7 amended: the CSV starts with the header `date,<word1>,...`
listing the table's columns (`date` first, then exactly the words occurring
in the matching snapshot files), and has exactly one data line per processed
date. Every count cell carries the cumulative count, but only the columns of
words already present in the first processed file are serialized as bare
integers; a word first introduced by a later file leaves NaN cells above it,
its column is promoted to float64, and all its cells are serialized in float
form (`"0.0"`, `"1.0"`, ...). -/
theorem claim_C7_amended (listing : List String)
    (content : String → List String) (rows : List Row) (r0 : Row)
    (hrows : rows = process_files_in_directory listing content)
    (h0 : rows.head? = some r0) :
    (to_csv rows).head? =
      some (String.intercalate "," ("date" :: wordColumns rows)) ∧
    (∀ w, w ∈ wordColumns rows ↔
      w ≠ "date" ∧ ∃ f ∈ listing, matchesSnapshot f = true ∧ w ∈ content f) ∧
    (to_csv rows).length = rows.length + 1 ∧
    (∀ r ∈ rows, ∀ w,
      (hasKey r0.counts w = true → csvCell rows r w = toString (r.cell w)) ∧
      (hasKey r0.counts w = false →
        csvCell rows r w = toString (r.cell w) ++ ".0")) := by
  have hne : rows ≠ [] := by
    intro h
    rw [h] at h0
    exact absurd h0 (by simp)
  refine ⟨?_, ?_, ?_, ?_⟩
  · show some (String.intercalate "," (dfColumns rows)) = _
    rw [dfColumns_eq_date_cons_wordColumns rows hne]
  · intro w
    rw [hrows]
    exact mem_wordColumns_iff listing content w
  · show (String.intercalate "," (dfColumns rows) ::
      rows.map (csvDataLine rows)).length = rows.length + 1
    simp
  · intro r hr w
    have hall : hasKey r0.counts w = true →
        ∀ r' ∈ rows, hasKey r'.counts w = true := by
      intro hk r' hr'
      cases hfs : sortedFileNames listing with
      | nil =>
        rw [hrows] at hr'
        unfold process_files_in_directory at hr'
        rw [hfs] at hr'
        exact absurd hr' (List.not_mem_nil r')
      | cons f fs =>
        have hr0 : r0 = Row.mk (extractDate f)
            (addWords [] (content f)) := by
          rw [hrows] at h0
          unfold process_files_in_directory at h0
          rw [hfs] at h0
          exact (Option.some.inj h0).symm
        rw [hrows] at hr'
        unfold process_files_in_directory at hr'
        rw [hfs] at hr'
        have hrows2 : processRows content (f :: fs) [] =
            Row.mk (extractDate f) (addWords [] (content f)) ::
              processRows content fs (addWords [] (content f)) := rfl
        rw [hrows2] at hr'
        rcases List.mem_cons.mp hr' with rfl | hr'
        · rw [← hr0]; exact hk
        · refine hasKey_processRows_mono content fs _ r' hr' w ?_
          rw [hr0] at hk
          exact hk
    constructor
    · intro hk
      have hfloat : colIsFloat rows w = false :=
        (colIsFloat_eq_false_iff rows w).mpr (hall hk)
      unfold csvCell
      rw [hfloat]
      simp
    · intro hk
      have hfloat : colIsFloat rows w = true := by
        have hr0mem : r0 ∈ rows := by
          cases rows with
          | nil => exact absurd rfl hne
          | cons a l =>
            have : a = r0 := Option.some.inj h0
            simp [this]
        unfold colIsFloat
        rw [List.any_eq_true]
        exact ⟨r0, hr0mem, by simp [hk]⟩
      unfold csvCell
      rw [hfloat]
      simp

theorem claim_C7_amended_witness :
    (process_files_in_directory lateListing lateContent =
      process_files_in_directory lateListing lateContent) ∧
    ((process_files_in_directory lateListing lateContent).head? =
      some (Row.mk "2024_01_01" [("sol", 1)])) ∧
    ((to_csv (process_files_in_directory lateListing lateContent)).head? =
      some (String.intercalate ","
        ("date" :: wordColumns
          (process_files_in_directory lateListing lateContent))) ∧
    (∀ w, w ∈ wordColumns (process_files_in_directory lateListing lateContent) ↔
      w ≠ "date" ∧ ∃ f ∈ lateListing, matchesSnapshot f = true ∧
        w ∈ lateContent f) ∧
    (to_csv (process_files_in_directory lateListing lateContent)).length =
      (process_files_in_directory lateListing lateContent).length + 1 ∧
    (∀ r ∈ process_files_in_directory lateListing lateContent, ∀ w,
      (hasKey (Row.mk "2024_01_01" [("sol", 1)]).counts w = true →
        csvCell (process_files_in_directory lateListing lateContent) r w =
          toString (r.cell w)) ∧
      (hasKey (Row.mk "2024_01_01" [("sol", 1)]).counts w = false →
        csvCell (process_files_in_directory lateListing lateContent) r w =
          toString (r.cell w) ++ ".0"))) :=
  ⟨rfl, by decide,
   claim_C7_amended lateListing lateContent _ _ rfl (by decide)⟩

/-! ### The top-15 selection of the PNG export -/

/-- Two distinct members of a list occur in one of the two relative orders. -/
theorem pair_sublist_of_mem {α : Type} :
    ∀ (l : List α) (a b : α), a ∈ l → b ∈ l → a ≠ b →
      [a, b].Sublist l ∨ [b, a].Sublist l := by
  intro l
  induction l with
  | nil => intro a b ha _ _; exact absurd ha (List.not_mem_nil a)
  | cons x l ih =>
    intro a b ha hb hab
    by_cases hxa : x = a
    · subst hxa
      have hb' : b ∈ l := by
        rcases List.mem_cons.mp hb with rfl | h
        · exact absurd rfl (Ne.symm hab)
        · exact h
      exact Or.inl (List.Sublist.cons₂ x (List.singleton_sublist.mpr hb'))
    · by_cases hxb : x = b
      · subst hxb
        have ha' : a ∈ l := by
          rcases List.mem_cons.mp ha with rfl | h
          · exact absurd rfl hab
          · exact h
        exact Or.inr (List.Sublist.cons₂ x (List.singleton_sublist.mpr ha'))
      · have ha' : a ∈ l := by
          rcases List.mem_cons.mp ha with rfl | h
          · exact absurd rfl (Ne.symm hxa)
          · exact h
        have hb' : b ∈ l := by
          rcases List.mem_cons.mp hb with rfl | h
          · exact absurd rfl (Ne.symm hxb)
          · exact h
        rcases ih a b ha' hb' hab with h | h
        · exact Or.inl (h.cons x)
        · exact Or.inr (h.cons x)

/-- Claim C5: when the final row has more than 15 distinct word columns, the
PNG export selects exactly 15 (word, count) pairs from that row, and every
selected pair beats every unselected one: strictly higher count, or an equal
count with the selected word standing earlier in the table's column order
(the pair `[p, q]` in that order is a sublist of the column-ordered row) —
the behaviour of a stable descending sort followed by `head(15)`. -/
theorem claim_C5 (listing : List String) (content : String → List String)
    (rows : List Row) (last : Row) (sel : List (String × Nat))
    (hrows : rows = process_files_in_directory listing content)
    (hlast : ilocLast rows = Except.ok last)
    (h15 : 15 < (wordColumns rows).length)
    (hsel : save_last_row_top15 rows = Except.ok sel) :
    sel.length = 15 ∧
    (∀ p ∈ sel, p ∈ (wordColumns rows).map fun w => (w, last.cell w)) ∧
    (∀ p ∈ sel, ∀ q ∈ (wordColumns rows).map fun w => (w, last.cell w),
      q ∉ sel → q.2 < p.2 ∨ (q.2 = p.2 ∧
        [p, q].Sublist ((wordColumns rows).map fun w => (w, last.cell w)))) := by
  have hsel2 : sel =
      ((((wordColumns rows).map fun w => (w, last.cell w)).insertionSort
        descCount).take 15) := by
    unfold save_last_row_top15 at hsel
    rw [hlast] at hsel
    exact (Except.ok.inj hsel).symm
  have hwnd : (wordColumns rows).Nodup :=
    (dfColumns_nodup rows).filter _
  have hpnd : ((wordColumns rows).map fun w => (w, last.cell w)).Nodup := by
    refine List.Nodup.map_on ?_ hwnd
    intro x _ y _ hxy
    exact congrArg Prod.fst hxy
  have hperm := List.perm_insertionSort descCount
    ((wordColumns rows).map fun w => (w, last.cell w))
  have hsnd : (((wordColumns rows).map fun w => (w, last.cell w)).insertionSort
      descCount).Nodup := hperm.symm.nodup hpnd
  have hslen : (((wordColumns rows).map fun w => (w, last.cell w)).insertionSort
      descCount).length = (wordColumns rows).length := by
    rw [List.length_insertionSort, List.length_map]
  constructor
  · rw [hsel2, List.length_take, hslen]
    omega
  constructor
  · intro p hp
    rw [hsel2] at hp
    exact hperm.subset ((List.take_sublist _ _).subset hp)
  · intro p hp q hq hqn
    have hqs : q ∈ (((wordColumns rows).map fun w => (w, last.cell w)).insertionSort
        descCount) := hperm.symm.subset hq
    have hqdrop : q ∈ (((wordColumns rows).map fun w =>
        (w, last.cell w)).insertionSort descCount).drop 15 := by
      have := (List.take_append_drop 15
        (((wordColumns rows).map fun w => (w, last.cell w)).insertionSort
          descCount)).symm
      rw [this] at hqs
      rcases List.mem_append.mp hqs with h | h
      · rw [← hsel2] at h
        exact absurd h hqn
      · exact h
    rw [hsel2] at hp
    have hrel : descCount p q :=
      (List.sorted_insertionSort descCount _).rel_of_mem_take_of_mem_drop
        hp hqdrop
    rcases Nat.lt_or_ge q.2 p.2 with hlt | hge
    · exact Or.inl hlt
    · have heq : q.2 = p.2 := Nat.le_antisymm hrel hge
      refine Or.inr ⟨heq, ?_⟩
      have hpmem : p ∈ (wordColumns rows).map fun w => (w, last.cell w) :=
        hperm.subset ((List.take_sublist _ _).subset hp)
      have hne : p ≠ q := by
        intro e
        rw [← hsel2] at hp
        exact hqn (e ▸ hp)
      rcases pair_sublist_of_mem _ p q hpmem hq hne with h | h
      · exact h
      · exfalso
        have hqp : descCount q p := by
          show p.2 ≤ q.2
          omega
        have hsub : [q, p].Sublist
            ((((wordColumns rows).map fun w => (w, last.cell w)).insertionSort
              descCount)) :=
          List.pair_sublist_insertionSort hqp h
        have hsplit := List.sublist_append_iff.mp
          ((List.take_append_drop 15
            (((wordColumns rows).map fun w => (w, last.cell w)).insertionSort
              descCount)) ▸ hsub)
        obtain ⟨l₁, l₂, heq2, hl₁, hl₂⟩ := hsplit
        have hdisj := (List.nodup_append.mp
          ((List.take_append_drop 15
            (((wordColumns rows).map fun w => (w, last.cell w)).insertionSort
              descCount)).symm ▸ hsnd)).2.2
        cases l₁ with
        | nil =>
          rw [List.nil_append] at heq2
          rw [← heq2] at hl₂
          have hpd : p ∈ (((wordColumns rows).map fun w =>
              (w, last.cell w)).insertionSort descCount).drop 15 :=
            hl₂.subset (by simp)
          exact hdisj hp hpd
        | cons x l₁' =>
          have hx : x = q := (List.cons.injEq _ _ _ _ ▸ heq2).1.symm
          subst hx
          cases l₁' with
          | nil =>
            have hqtake : x ∈ (((wordColumns rows).map fun w =>
                (w, last.cell w)).insertionSort descCount).take 15 :=
              hl₁.subset (by simp)
            have hqd : x ∉ (((wordColumns rows).map fun w =>
                (w, last.cell w)).insertionSort descCount).drop 15 :=
              hdisj hqtake
            exact hqd hqdrop
          | cons y l₁'' =>
            have : y = p ∧ l₁'' ++ l₂ = [] := by
              have h2 := (List.cons.injEq _ _ _ _ ▸ heq2).2
              exact ⟨(List.cons.injEq _ _ _ _ ▸ h2).1.symm,
                ((List.cons.injEq _ _ _ _ ▸ h2).2).symm⟩
            obtain ⟨rfl, -⟩ := this
            have hqtake : x ∈ (((wordColumns rows).map fun w =>
                (w, last.cell w)).insertionSort descCount).take 15 :=
              hl₁.subset (by simp)
            exact hdisj hqtake hqdrop

theorem claim_C5_witness :
    (process_files_in_directory wideListing wideContent =
      process_files_in_directory wideListing wideContent) ∧
    (ilocLast (process_files_in_directory wideListing wideContent) =
      Except.ok (Row.mk "2024_01_01"
        [("w01", 1), ("w02", 1), ("w03", 1), ("w04", 1), ("w05", 1),
         ("w06", 1), ("w07", 1), ("w08", 1), ("w09", 1), ("w10", 1),
         ("w11", 1), ("w12", 1), ("w13", 1), ("w14", 1), ("w15", 1),
         ("w16", 1)])) ∧
    (15 < (wordColumns
      (process_files_in_directory wideListing wideContent)).length) ∧
    (save_last_row_top15 (process_files_in_directory wideListing wideContent) =
      Except.ok
        [("w01", 1), ("w02", 1), ("w03", 1), ("w04", 1), ("w05", 1),
         ("w06", 1), ("w07", 1), ("w08", 1), ("w09", 1), ("w10", 1),
         ("w11", 1), ("w12", 1), ("w13", 1), ("w14", 1), ("w15", 1)]) ∧
    (([("w01", 1), ("w02", 1), ("w03", 1), ("w04", 1), ("w05", 1),
       ("w06", 1), ("w07", 1), ("w08", 1), ("w09", 1), ("w10", 1),
       ("w11", 1), ("w12", 1), ("w13", 1), ("w14", 1), ("w15", 1)] :
        List (String × Nat)).length = 15 ∧
     (∀ p ∈ ([("w01", 1), ("w02", 1), ("w03", 1), ("w04", 1), ("w05", 1),
       ("w06", 1), ("w07", 1), ("w08", 1), ("w09", 1), ("w10", 1),
       ("w11", 1), ("w12", 1), ("w13", 1), ("w14", 1), ("w15", 1)] :
        List (String × Nat)),
       p ∈ (wordColumns
        (process_files_in_directory wideListing wideContent)).map
          fun w => (w, (Row.mk "2024_01_01"
            [("w01", 1), ("w02", 1), ("w03", 1), ("w04", 1), ("w05", 1),
             ("w06", 1), ("w07", 1), ("w08", 1), ("w09", 1), ("w10", 1),
             ("w11", 1), ("w12", 1), ("w13", 1), ("w14", 1), ("w15", 1),
             ("w16", 1)]).cell w)) ∧
     (∀ p ∈ ([("w01", 1), ("w02", 1), ("w03", 1), ("w04", 1), ("w05", 1),
       ("w06", 1), ("w07", 1), ("w08", 1), ("w09", 1), ("w10", 1),
       ("w11", 1), ("w12", 1), ("w13", 1), ("w14", 1), ("w15", 1)] :
        List (String × Nat)),
       ∀ q ∈ (wordColumns
        (process_files_in_directory wideListing wideContent)).map
          fun w => (w, (Row.mk "2024_01_01"
            [("w01", 1), ("w02", 1), ("w03", 1), ("w04", 1), ("w05", 1),
             ("w06", 1), ("w07", 1), ("w08", 1), ("w09", 1), ("w10", 1),
             ("w11", 1), ("w12", 1), ("w13", 1), ("w14", 1), ("w15", 1),
             ("w16", 1)]).cell w),
         q ∉ ([("w01", 1), ("w02", 1), ("w03", 1), ("w04", 1), ("w05", 1),
           ("w06", 1), ("w07", 1), ("w08", 1), ("w09", 1), ("w10", 1),
           ("w11", 1), ("w12", 1), ("w13", 1), ("w14", 1), ("w15", 1)] :
            List (String × Nat)) →
           q.2 < p.2 ∨ (q.2 = p.2 ∧
             [p, q].Sublist ((wordColumns
              (process_files_in_directory wideListing wideContent)).map
                fun w => (w, (Row.mk "2024_01_01"
                  [("w01", 1), ("w02", 1), ("w03", 1), ("w04", 1), ("w05", 1),
                   ("w06", 1), ("w07", 1), ("w08", 1), ("w09", 1), ("w10", 1),
                   ("w11", 1), ("w12", 1), ("w13", 1), ("w14", 1), ("w15", 1),
                   ("w16", 1)]).cell w))))) :=
  ⟨rfl, rfl, by decide, rfl,
   claim_C5 wideListing wideContent _ _ _ rfl rfl (by decide) rfl⟩

/-! ### Dates embedded in filenames, and their order -/

theorem digitChar_inj : ∀ u < 10, ∀ v < 10,
    (digitChar u = digitChar v ↔ u = v) := by decide

theorem digitChar_lt : ∀ u < 10, ∀ v < 10,
    (digitChar u < digitChar v ↔ u < v) := by decide

theorem digitChar_ne_p : ∀ u < 10, digitChar u ≠ 'p' := by decide

theorem digitChar_ne_dot : ∀ u < 10, digitChar u ≠ '.' := by decide

theorem strLeb_cons (x y : Char) (xs ys : List Char) :
    strLeb (x :: xs) (y :: ys) =
      if x = y then strLeb xs ys else decide (x < y) := rfl

theorem strLeb_cons_same (c : Char) (xs ys : List Char) :
    strLeb (c :: xs) (c :: ys) = strLeb xs ys := by
  rw [strLeb_cons, if_pos rfl]

theorem strLeb_refl : ∀ s : List Char, strLeb s s = true := by
  intro s
  induction s with
  | nil => rfl
  | cons c cs ih => rw [strLeb_cons_same]; exact ih

theorem strLeb_append_left : ∀ (p s1 s2 : List Char),
    strLeb (p ++ s1) (p ++ s2) = strLeb s1 s2 := by
  intro p
  induction p with
  | nil => intro s1 s2; rfl
  | cons c p ih =>
    intro s1 s2
    rw [List.cons_append, List.cons_append, strLeb_cons_same]
    exact ih s1 s2

theorem strLeb_dateChars (a b : SDate) (ha : a.Valid) (hb : b.Valid)
    (t : List Char) :
    (strLeb (dateChars a ++ t) (dateChars b ++ t) = true) ↔
      dateVal a ≤ dateVal b := by
  obtain ⟨hay, ham, had⟩ := ha
  obtain ⟨hby, hbm, hbd⟩ := hb
  have h10 : ∀ n : Nat, n % 10 < 10 := fun n => Nat.mod_lt _ (by omega)
  simp only [dateChars, List.cons_append]
  rw [strLeb_cons]
  by_cases h1 : digitChar (a.year / 1000 % 10) = digitChar (b.year / 1000 % 10)
  case neg =>
    rw [if_neg h1, decide_eq_true_eq, digitChar_lt _ (h10 _) _ (h10 _)]
    have hne : a.year / 1000 % 10 ≠ b.year / 1000 % 10 :=
      fun e => h1 ((digitChar_inj _ (h10 _) _ (h10 _)).mpr e)
    unfold dateVal
    omega
  have e1 : a.year / 1000 % 10 = b.year / 1000 % 10 :=
    (digitChar_inj _ (h10 _) _ (h10 _)).mp h1
  rw [if_pos h1, strLeb_cons]
  by_cases h2 : digitChar (a.year / 100 % 10) = digitChar (b.year / 100 % 10)
  case neg =>
    rw [if_neg h2, decide_eq_true_eq, digitChar_lt _ (h10 _) _ (h10 _)]
    have hne : a.year / 100 % 10 ≠ b.year / 100 % 10 :=
      fun e => h2 ((digitChar_inj _ (h10 _) _ (h10 _)).mpr e)
    unfold dateVal
    omega
  have e2 : a.year / 100 % 10 = b.year / 100 % 10 :=
    (digitChar_inj _ (h10 _) _ (h10 _)).mp h2
  rw [if_pos h2, strLeb_cons]
  by_cases h3 : digitChar (a.year / 10 % 10) = digitChar (b.year / 10 % 10)
  case neg =>
    rw [if_neg h3, decide_eq_true_eq, digitChar_lt _ (h10 _) _ (h10 _)]
    have hne : a.year / 10 % 10 ≠ b.year / 10 % 10 :=
      fun e => h3 ((digitChar_inj _ (h10 _) _ (h10 _)).mpr e)
    unfold dateVal
    omega
  have e3 : a.year / 10 % 10 = b.year / 10 % 10 :=
    (digitChar_inj _ (h10 _) _ (h10 _)).mp h3
  rw [if_pos h3, strLeb_cons]
  by_cases h4 : digitChar (a.year % 10) = digitChar (b.year % 10)
  case neg =>
    rw [if_neg h4, decide_eq_true_eq, digitChar_lt _ (h10 _) _ (h10 _)]
    have hne : a.year % 10 ≠ b.year % 10 :=
      fun e => h4 ((digitChar_inj _ (h10 _) _ (h10 _)).mpr e)
    unfold dateVal
    omega
  have e4 : a.year % 10 = b.year % 10 :=
    (digitChar_inj _ (h10 _) _ (h10 _)).mp h4
  rw [if_pos h4, strLeb_cons_same, strLeb_cons]
  by_cases h5 : digitChar (a.month / 10 % 10) = digitChar (b.month / 10 % 10)
  case neg =>
    rw [if_neg h5, decide_eq_true_eq, digitChar_lt _ (h10 _) _ (h10 _)]
    have hne : a.month / 10 % 10 ≠ b.month / 10 % 10 :=
      fun e => h5 ((digitChar_inj _ (h10 _) _ (h10 _)).mpr e)
    have hyear : a.year = b.year := by omega
    unfold dateVal
    omega
  have e5 : a.month / 10 % 10 = b.month / 10 % 10 :=
    (digitChar_inj _ (h10 _) _ (h10 _)).mp h5
  rw [if_pos h5, strLeb_cons]
  by_cases h6 : digitChar (a.month % 10) = digitChar (b.month % 10)
  case neg =>
    rw [if_neg h6, decide_eq_true_eq, digitChar_lt _ (h10 _) _ (h10 _)]
    have hne : a.month % 10 ≠ b.month % 10 :=
      fun e => h6 ((digitChar_inj _ (h10 _) _ (h10 _)).mpr e)
    have hyear : a.year = b.year := by omega
    unfold dateVal
    omega
  have e6 : a.month % 10 = b.month % 10 :=
    (digitChar_inj _ (h10 _) _ (h10 _)).mp h6
  rw [if_pos h6, strLeb_cons_same, strLeb_cons]
  by_cases h7 : digitChar (a.day / 10 % 10) = digitChar (b.day / 10 % 10)
  case neg =>
    rw [if_neg h7, decide_eq_true_eq, digitChar_lt _ (h10 _) _ (h10 _)]
    have hne : a.day / 10 % 10 ≠ b.day / 10 % 10 :=
      fun e => h7 ((digitChar_inj _ (h10 _) _ (h10 _)).mpr e)
    have hyear : a.year = b.year := by omega
    have hmonth : a.month = b.month := by omega
    unfold dateVal
    omega
  have e7 : a.day / 10 % 10 = b.day / 10 % 10 :=
    (digitChar_inj _ (h10 _) _ (h10 _)).mp h7
  rw [if_pos h7, strLeb_cons]
  by_cases h8 : digitChar (a.day % 10) = digitChar (b.day % 10)
  case neg =>
    rw [if_neg h8, decide_eq_true_eq, digitChar_lt _ (h10 _) _ (h10 _)]
    have hne : a.day % 10 ≠ b.day % 10 :=
      fun e => h8 ((digitChar_inj _ (h10 _) _ (h10 _)).mpr e)
    have hyear : a.year = b.year := by omega
    have hmonth : a.month = b.month := by omega
    unfold dateVal
    omega
  have e8 : a.day % 10 = b.day % 10 :=
    (digitChar_inj _ (h10 _) _ (h10 _)).mp h8
  rw [if_pos h8, strLeb_refl]
  have heq : dateVal a = dateVal b := by
    unfold dateVal
    omega
  constructor
  · intro _; omega
  · intro _; rfl

theorem strLeP_mkFilename (a b : SDate) (ha : a.Valid) (hb : b.Valid) :
    strLeP (mkFilename a) (mkFilename b) ↔ dateVal a ≤ dateVal b := by
  unfold strLeP
  have hda : (mkFilename a).data =
      "palabras_".data ++ (dateChars a ++ ".txt".data) := by
    show ("palabras_".data ++ dateChars a) ++ ".txt".data = _
    rw [List.append_assoc]
  have hdb : (mkFilename b).data =
      "palabras_".data ++ (dateChars b ++ ".txt".data) := by
    show ("palabras_".data ++ dateChars b) ++ ".txt".data = _
    rw [List.append_assoc]
  rw [hda, hdb, strLeb_append_left]
  exact strLeb_dateChars a b ha hb _

theorem dateVal_inj (a b : SDate) (ha : a.Valid) (hb : b.Valid)
    (h : dateVal a = dateVal b) : a = b := by
  obtain ⟨ha1, ha2, ha3⟩ := ha
  obtain ⟨hb1, hb2, hb3⟩ := hb
  unfold dateVal at h
  cases a with
  | mk ya ma da =>
    cases b with
    | mk yb mb db =>
      simp only [SDate.mk.injEq]
      simp only at h ha1 ha2 ha3 hb1 hb2 hb3
      omega

theorem sdate_lt_iff_dateVal (a b : SDate) (ha : a.Valid) (hb : b.Valid) :
    SDate.lt a b ↔ dateVal a < dateVal b := by
  obtain ⟨ha1, ha2, ha3⟩ := ha
  obtain ⟨hb1, hb2, hb3⟩ := hb
  unfold SDate.lt dateVal
  omega

/-! ### Extraction of the date from a well-formed filename -/

theorem replaceAllAux_no_head (p0 : Char) (pat' rep : List Char) :
    ∀ (s : List Char) (fuel : Nat), (∀ c ∈ s, c ≠ p0) →
      replaceAllAux (p0 :: pat') rep fuel s = s := by
  intro s
  induction s with
  | nil => intro fuel _; cases fuel <;> rfl
  | cons c cs ih =>
    intro fuel hc
    cases fuel with
    | zero => rfl
    | succ fuel =>
      simp only [replaceAllAux]
      have hb : ((p0 :: pat').isPrefixOf (c :: cs)) = false := by
        have hcne : (p0 == c) = false :=
          beq_eq_false_iff_ne.mpr (Ne.symm (hc c (by simp)))
        simp [List.isPrefixOf, hcne]
      rw [hb, if_neg Bool.false_ne_true]
      congr 1
      exact ih fuel fun x hx => hc x (by simp [hx])

theorem replaceAllAux_prefix_strip (p0 : Char) (pat' rep : List Char)
    (fuel : Nat) (rest : List Char) (h : ∀ c ∈ rest, c ≠ p0) :
    replaceAllAux (p0 :: pat') rep (fuel + 1) ((p0 :: pat') ++ rest) =
      rep ++ rest := by
  rw [List.cons_append]
  simp only [replaceAllAux]
  have hpre : ((p0 :: pat').isPrefixOf (p0 :: (pat' ++ rest))) = true := by
    rw [List.isPrefixOf_iff_prefix, ← List.cons_append]
    exact ⟨rest, rfl⟩
  rw [hpre, if_pos rfl]
  have hdrop : (p0 :: (pat' ++ rest)).drop (p0 :: pat').length = rest := by
    rw [← List.cons_append]
    exact List.drop_left _ _
  rw [hdrop, replaceAllAux_no_head p0 pat' rep rest fuel h]

theorem replaceAllAux_suffix_strip (p0 : Char) (pat' : List Char) :
    ∀ (body : List Char) (fuel : Nat),
      body.length + (p0 :: pat').length ≤ fuel →
      (∀ c ∈ body, c ≠ p0) →
      replaceAllAux (p0 :: pat') [] fuel (body ++ (p0 :: pat')) = body := by
  intro body
  induction body with
  | nil =>
    intro fuel hf _
    cases fuel with
    | zero => simp at hf
    | succ fuel =>
      rw [List.nil_append]
      have h2 := replaceAllAux_prefix_strip p0 pat' [] fuel []
        (by intro c hc; exact absurd hc (List.not_mem_nil c))
      rw [List.append_nil] at h2
      rw [h2]
      rfl
  | cons c body ih =>
    intro fuel hf hc
    cases fuel with
    | zero => simp at hf
    | succ fuel =>
      rw [List.cons_append]
      simp only [replaceAllAux]
      have hb : ((p0 :: pat').isPrefixOf
          (c :: (body ++ (p0 :: pat')))) = false := by
        have hcne : (p0 == c) = false :=
          beq_eq_false_iff_ne.mpr (Ne.symm (hc c (by simp)))
        simp [List.isPrefixOf, hcne]
      rw [hb, if_neg Bool.false_ne_true]
      congr 1
      refine ih fuel ?_ fun x hx => hc x (by simp [hx])
      simp only [List.length_cons] at hf ⊢
      omega

theorem dateChars_ne_p (d : SDate) : ∀ c ∈ dateChars d, c ≠ 'p' := by
  have h10 : ∀ n : Nat, n % 10 < 10 := fun n => Nat.mod_lt _ (by omega)
  intro c hc
  simp only [dateChars, List.mem_cons, List.not_mem_nil, or_false] at hc
  rcases hc with rfl | rfl | rfl | rfl | rfl | rfl | rfl | rfl | rfl | rfl
  · exact digitChar_ne_p _ (h10 _)
  · exact digitChar_ne_p _ (h10 _)
  · exact digitChar_ne_p _ (h10 _)
  · exact digitChar_ne_p _ (h10 _)
  · decide
  · exact digitChar_ne_p _ (h10 _)
  · exact digitChar_ne_p _ (h10 _)
  · decide
  · exact digitChar_ne_p _ (h10 _)
  · exact digitChar_ne_p _ (h10 _)

theorem dateChars_ne_dot (d : SDate) : ∀ c ∈ dateChars d, c ≠ '.' := by
  have h10 : ∀ n : Nat, n % 10 < 10 := fun n => Nat.mod_lt _ (by omega)
  intro c hc
  simp only [dateChars, List.mem_cons, List.not_mem_nil, or_false] at hc
  rcases hc with rfl | rfl | rfl | rfl | rfl | rfl | rfl | rfl | rfl | rfl
  · exact digitChar_ne_dot _ (h10 _)
  · exact digitChar_ne_dot _ (h10 _)
  · exact digitChar_ne_dot _ (h10 _)
  · exact digitChar_ne_dot _ (h10 _)
  · decide
  · exact digitChar_ne_dot _ (h10 _)
  · exact digitChar_ne_dot _ (h10 _)
  · decide
  · exact digitChar_ne_dot _ (h10 _)
  · exact digitChar_ne_dot _ (h10 _)

theorem extractDate_mkFilename (d : SDate) :
    extractDate (mkFilename d) = dateStr d := by
  have hdata : (mkFilename d).data =
      ('p' :: "alabras_".data) ++ (dateChars d ++ ('.' :: "txt".data)) := by
    show ("palabras_".data ++ dateChars d) ++ ".txt".data = _
    rw [List.append_assoc]
  have hnop : ∀ c ∈ dateChars d ++ ('.' :: "txt".data), c ≠ 'p' := by
    intro c hcm
    rcases List.mem_append.mp hcm with hcm | hcm
    · exact dateChars_ne_p d c hcm
    · simp only [List.mem_cons, List.not_mem_nil, or_false] at hcm
      rcases hcm with rfl | rfl | rfl | rfl
      · decide
      · decide
      · decide
      · decide
  have hlen : (mkFilename d).data.length = 22 + 1 := by
    rw [hdata]
    simp [dateChars]
  have step1 : replaceAll (mkFilename d) "palabras_" "" =
      String.mk (dateChars d ++ ('.' :: "txt".data)) := by
    unfold replaceAll
    rw [hlen, hdata]
    congr 1
    exact replaceAllAux_prefix_strip 'p' "alabras_".data [] 22
      (dateChars d ++ ('.' :: "txt".data)) hnop
  show replaceAll (replaceAll (mkFilename d) "palabras_" "") ".txt" "" =
    dateStr d
  rw [step1]
  unfold replaceAll
  have hlen2 : (String.mk (dateChars d ++ ('.' :: "txt".data))).data.length
      = 14 := by
    simp [dateChars]
  rw [hlen2]
  show String.mk (replaceAllAux ('.' :: "txt".data) [] 14
    (dateChars d ++ ('.' :: "txt".data))) = dateStr d
  unfold dateStr
  congr 1
  refine replaceAllAux_suffix_strip '.' "txt".data (dateChars d) 14 ?_
    (dateChars_ne_dot d)
  simp [dateChars]

theorem exists_dates_of_filenames : ∀ (fs : List String),
    (∀ f ∈ fs, ∃ d : SDate, d.Valid ∧ f = mkFilename d) →
    ∃ ds : List SDate, (∀ d ∈ ds, d.Valid) ∧ fs = ds.map mkFilename := by
  intro fs
  induction fs with
  | nil => intro _; exact ⟨[], by simp, rfl⟩
  | cons f fs ih =>
    intro h
    obtain ⟨d, hd, hf⟩ := h f (by simp)
    obtain ⟨ds, hds, hmap⟩ := ih fun g hg => h g (by simp [hg])
    refine ⟨d :: ds, ?_, by simp [hf, hmap]⟩
    intro x hx
    rcases List.mem_cons.mp hx with rfl | hx
    · exact hd
    · exact hds x hx

/-- Claim C8: when every matching snapshot filename embeds a zero-padded
`YYYY_MM_DD` date, the files are processed — and hence the table's rows are
produced and labeled — in strictly ascending order of the embedded date. -/
theorem claim_C8 (listing : List String) (content : String → List String)
    (hnd : listing.Nodup)
    (hform : ∀ f ∈ listing, matchesSnapshot f = true →
      ∃ d : SDate, d.Valid ∧ f = mkFilename d) :
    ∃ ds : List SDate,
      (∀ d ∈ ds, d.Valid) ∧
      sortedFileNames listing = ds.map mkFilename ∧
      (process_files_in_directory listing content).map Row.date =
        ds.map dateStr ∧
      ds.Pairwise SDate.lt := by
  have hmem : ∀ f ∈ sortedFileNames listing,
      ∃ d : SDate, d.Valid ∧ f = mkFilename d := by
    intro f hf
    have hf2 : f ∈ listing.filter matchesSnapshot :=
      (List.perm_insertionSort strLeP _).subset hf
    obtain ⟨hfl, hfm⟩ := List.mem_filter.mp hf2
    exact hform f hfl hfm
  obtain ⟨ds, hds, hmap⟩ := exists_dates_of_filenames _ hmem
  refine ⟨ds, hds, hmap, ?_, ?_⟩
  · unfold process_files_in_directory
    rw [processRows_map_date, hmap, List.map_map]
    apply List.map_congr_left
    intro d hd
    exact extractDate_mkFilename d
  · have hsorted : (sortedFileNames listing).Pairwise strLeP :=
      List.sorted_insertionSort strLeP _
    have hnodup : (sortedFileNames listing).Nodup :=
      (List.perm_insertionSort strLeP _).symm.nodup (hnd.filter _)
    rw [hmap] at hsorted hnodup
    have hp1 : ds.Pairwise fun x y => strLeP (mkFilename x) (mkFilename y) :=
      List.pairwise_map.mp hsorted
    have hp2 : ds.Pairwise fun x y => mkFilename x ≠ mkFilename y :=
      List.pairwise_map.mp hnodup
    refine List.Pairwise.imp_of_mem ?_ (hp1.and hp2)
    intro x y hx hy hxy
    obtain ⟨hle, hne⟩ := hxy
    have hvx := hds x hx
    have hvy := hds y hy
    have h1 : dateVal x ≤ dateVal y :=
      (strLeP_mkFilename x y hvx hvy).mp hle
    have h2 : dateVal x ≠ dateVal y := by
      intro e
      exact hne (congrArg mkFilename (dateVal_inj x y hvx hvy e))
    exact (sdate_lt_iff_dateVal x y hvx hvy).mpr (by omega)

theorem claim_C8_witness :
    (["palabras_2024_01_02.txt", "palabras_2024_01_01.txt"] :
      List String).Nodup ∧
    (∀ f ∈ (["palabras_2024_01_02.txt", "palabras_2024_01_01.txt"] :
        List String), matchesSnapshot f = true →
      ∃ d : SDate, d.Valid ∧ f = mkFilename d) ∧
    ∃ ds : List SDate,
      (∀ d ∈ ds, d.Valid) ∧
      sortedFileNames ["palabras_2024_01_02.txt", "palabras_2024_01_01.txt"] =
        ds.map mkFilename ∧
      (process_files_in_directory
        ["palabras_2024_01_02.txt", "palabras_2024_01_01.txt"]
        (fun _ => [])).map Row.date = ds.map dateStr ∧
      ds.Pairwise SDate.lt := by
  have hform : ∀ f ∈ (["palabras_2024_01_02.txt",
      "palabras_2024_01_01.txt"] : List String), matchesSnapshot f = true →
      ∃ d : SDate, d.Valid ∧ f = mkFilename d := by
    intro f hf _
    rcases List.mem_cons.mp hf with rfl | hf2
    · exact ⟨SDate.mk 2024 1 2, by decide, by decide⟩
    rcases List.mem_cons.mp hf2 with rfl | hf3
    · exact ⟨SDate.mk 2024 1 1, by decide, by decide⟩
    · exact absurd hf3 (List.not_mem_nil f)
  exact ⟨by decide, hform,
    claim_C8 ["palabras_2024_01_02.txt", "palabras_2024_01_01.txt"]
      (fun _ => []) (by decide) hform⟩

theorem claim_C4_witness :
    scraper_main "out/palabras_2025_06_01.txt" true (some ["casa"]) =
      [Effect.printMsg ("El archivo out/palabras_2025_06_01.txt" ++
        " ya existe. No se escribirá nada.")] ∧
    Effect.write "out/palabras_2025_06_01.txt" ["casa"] ∉
      scraper_main "out/palabras_2025_06_01.txt" true (some ["casa"]) :=
  ⟨(claim_C4 "out/palabras_2025_06_01.txt" (some ["casa"])).1,
   (claim_C4 "out/palabras_2025_06_01.txt" (some ["casa"])).2
     "out/palabras_2025_06_01.txt" ["casa"]⟩

theorem claim_C6_amended_witness :
    Effect.fetch "https://academia.gal/dicionario" ∉
      scraper_main "out/palabras_2025_06_02.txt" true (some ["casa"]) ∧
    (scraper_main "out/palabras_2025_06_02.txt" false
      (some ["casa"])).head? =
        some (Effect.fetch "https://academia.gal/dicionario") :=
  ⟨(claim_C6_amended "out/palabras_2025_06_02.txt" (some ["casa"])).1
    "https://academia.gal/dicionario",
   (claim_C6_amended "out/palabras_2025_06_02.txt" (some ["casa"])).2⟩

theorem claim_C9_witness :
    (["README.md"] : List String).filter matchesSnapshot = [] ∧
    (process_files_in_directory ["README.md"] (fun _ => []) = [] ∧
      meltTable (process_files_in_directory ["README.md"] (fun _ => [])) =
        Except.error "KeyError: date" ∧
      ilocLast (process_files_in_directory ["README.md"] (fun _ => [])) =
        Except.error
          "IndexError: single positional indexer is out-of-bounds") :=
  ⟨by decide, (claim_C9 ["README.md"] (fun _ => [])).1 (by decide)⟩
